import Mathlib

/-!
# Verification of the ringmpsc SPSC ring / MPSC channel core

Shallow embedding of the repository's core data structures and operations:

* `Ring` models `Ring<T>` from `crates/ringmpsc/src/ring.rs` (functionally
  identical to `src/ring.rs`): the SPSC ring buffer with 64-bit sequence
  numbers `head`/`tail`, producer/consumer cached peer indices, a `closed`
  flag and a slot buffer of `capacity = 2 ^ ring_bits` cells.
* `Reservation` data is modelled by `ResInfo` (`src/reservation.rs`); commit
  operations mirror `commit`, `try_commit_n` and `commit_up_to`.
* `Channel` models the registration state of `crates/ringmpsc/src/channel.rs`.
* `RingSender.trySend` models `crates/ringmpsc-stream/src/sender.rs::try_send`.

Sequence numbers are `u64` in the source with wrapping arithmetic; the source
asserts (INV-SEQ-02/03, spec invariants 2 and 3) that sequences are
monotonically increasing counts that never wrap in practice (~58 years at
10 G msg/s).  In that no-wrap regime `u64` wrapping addition agrees with `Nat`
addition, `wrapping_sub`/`saturating_sub` on ordered operands agree with `Nat`
truncated subtraction, and the `u64 -> usize` casts are the identity, so the
embedding uses `Nat` for sequences.  Slot indexing uses `Nat.land` exactly as
the source computes `seq & mask`.  Metrics counters and atomic-ordering
annotations are not modelled: the embedding gives the sequential (linearized)
semantics of the single-producer/single-consumer protocol.
-/

namespace Ringmpsc

/-- `Config` from `src/config.rs`: `ring_bits`, `max_producers`,
`enable_metrics`. -/
structure Config where
  ringBits : Nat
  maxProducers : Nat
  enableMetrics : Bool

/-- `Config::capacity`: `1 << ring_bits`. -/
def Config.capacity (c : Config) : Nat := 2 ^ c.ringBits

/-- `Config::mask`: `capacity - 1`. -/
def Config.mask (c : Config) : Nat := c.capacity - 1

/-- The state of `Ring<T>` (`ring.rs`): sequence counters, cached peer
indices, closed flag and the slot buffer.  The buffer is a total function
from slot index to payload; a "not yet initialized" slot simply holds a junk
value that the protocol never reads (spec invariant 4). -/
structure Ring (α : Type) where
  config : Config
  tail : Nat
  head : Nat
  cachedHead : Nat
  cachedTail : Nat
  closed : Bool
  buf : Nat → α

namespace Ring

variable {α : Type}

/-- `Ring::capacity`. -/
def capacity (r : Ring α) : Nat := r.config.capacity

/-- `Ring::mask`. -/
def mask (r : Ring α) : Nat := r.config.mask

/-- `Ring::new`: fresh ring, `head = tail = 0`, caches zero, open, all slots
uninitialized (junk value `d`). -/
def new (config : Config) (d : α) : Ring α :=
  { config := config, tail := 0, head := 0, cachedHead := 0, cachedTail := 0,
    closed := false, buf := fun _ => d }

/-- `Ring::len`: `tail.wrapping_sub(head) as usize`. -/
def len (r : Ring α) : Nat := r.tail - r.head

/-- `Ring::is_empty`. -/
def isEmpty (r : Ring α) : Bool := r.tail == r.head

/-- `Ring::is_full`: `len() >= capacity()`. -/
def isFull (r : Ring α) : Bool := r.capacity ≤ r.len

/-- `Ring::is_closed`. -/
def isClosed (r : Ring α) : Bool := r.closed

/-- `Ring::close`: `closed.store(true)`. -/
def close (r : Ring α) : Ring α := { r with closed := true }

end Ring

/-- The data of `Reservation<'a, T>` (`src/reservation.rs`): the sequence
number `start` at which it was taken, the raw buffer index `idx` of its
slice, and the slice length `len`. -/
structure ResInfo where
  start : Nat
  idx : Nat
  len : Nat
deriving DecidableEq

/-- `CommitError` from `src/reservation.rs`. -/
structure CommitError where
  attempted : Nat
  available : Nat
deriving DecidableEq

namespace Ring

variable {α : Type}

/-- `Ring::make_reservation`: `idx = (tail as usize) & mask`,
`contiguous = n.min(capacity - idx)`. -/
def makeReservation (r : Ring α) (tail n : Nat) : ResInfo :=
  let idx := Nat.land tail r.mask
  let contiguous := min n (r.capacity - idx)
  { start := tail, idx := idx, len := contiguous }

/-- `Ring::reserve`: rejects `n == 0 || n > capacity`; fast path checks the
cached head, slow path refreshes the cache from `head` and re-checks.  The
returned ring carries the (possibly refreshed) `cached_head`.  Note that the
source does **not** consult the `closed` flag here, despite its own doc
comment "Returns None if full/closed". -/
def reserve (r : Ring α) (n : Nat) : Option ResInfo × Ring α :=
  if n = 0 ∨ r.capacity < n then (none, r)
  else
    let tail := r.tail
    let space := r.capacity - (tail - r.cachedHead)
    if n ≤ space then (some (r.makeReservation tail n), r)
    else
      let head := r.head
      let r1 := { r with cachedHead := head }
      let space2 := r.capacity - (tail - head)
      if space2 < n then (none, r1)
      else (some (r1.makeReservation tail n), r1)

/-- `Ring::commit_internal`: `tail.store(tail.wrapping_add(n))`. -/
def commitInternal (r : Ring α) (n : Nat) : Ring α := { r with tail := r.tail + n }

/-- `Ring::advance`: `head.store(head.wrapping_add(n))`. -/
def advance (r : Ring α) (n : Nat) : Ring α := { r with head := r.head + n }

end Ring

/-- Writing a list of values into consecutive raw buffer slots starting at
`idx`: models the producer filling the reservation's slice
(`slice[i].write(items[i])`). -/
def writeSeq {α : Type} (buf : Nat → α) (idx : Nat) : List α → (Nat → α)
  | [] => buf
  | x :: xs => writeSeq (Function.update buf idx x) (idx + 1) xs

namespace Ring

variable {α : Type}

/-- The producer writing `xs` into a reservation's slice: at most `res.len`
values are written, at raw indices `res.idx ..`. -/
def writeRes (r : Ring α) (res : ResInfo) (xs : List α) : Ring α :=
  { r with buf := writeSeq r.buf res.idx (xs.take res.len) }

/-- `Reservation::commit`: commits all `len` reserved slots
(`commit_n_unchecked(self.len)`). -/
def commit (r : Ring α) (res : ResInfo) : Ring α := r.commitInternal res.len

/-- `Reservation::try_commit_n`: error if `n > len`, else commit `n`. -/
def tryCommitN (r : Ring α) (res : ResInfo) (n : Nat) :
    Except CommitError Unit × Ring α :=
  if res.len < n then (.error { attempted := n, available := res.len }, r)
  else (.ok (), r.commitInternal n)

/-- `Reservation::commit_up_to`: commits `min n len`, returns the count. -/
def commitUpTo (r : Ring α) (res : ResInfo) (n : Nat) : Nat × Ring α :=
  (min n res.len, r.commitInternal (min n res.len))

/-- `Ring::push`: `reserve(1)`, write the single item into `slice[0]`,
`commit()`.  Returns `false` (dropping the item) when the reserve fails. -/
def push (r : Ring α) (item : α) : Bool × Ring α :=
  match r.reserve 1 with
  | (none, r1) => (false, r1)
  | (some res, r1) => (true, (r1.writeRes res [item]).commit res)

/-- `Ring::send`: `reserve(items.len())`, write `items[0..n)` where
`n = slice.len()`, `commit()`; returns `n` (0 on failed reserve). -/
def send (r : Ring α) (items : List α) : Nat × Ring α :=
  match r.reserve items.length with
  | (none, r1) => (0, r1)
  | (some res, r1) => (res.len, (r1.writeRes res items).commit res)

/-- The values `consume_batch`/`consume_up_to` read: slots
`buffer[(start + i) & mask]` for `i < count`. -/
def readSeq (r : Ring α) (start count : Nat) : List α :=
  (List.range count).map (fun i => r.buf (Nat.land (start + i) r.mask))

/-- `Ring::consume_batch` (and `consume_batch_owned`, identical except for
handler calling convention): reads all of `[head, tail)`, then
`head.store(tail)`.  Returns the count and the list of values passed to the
handler, in order. -/
def consumeBatch (r : Ring α) : (Nat × List α) × Ring α :=
  let avail := r.tail - r.head
  if avail = 0 then ((0, []), r)
  else ((avail, r.readSeq r.head avail), { r with head := r.tail })

/-- `Ring::consume_batch_owned`: same slot traversal and head update as
`consume_batch`; the handler receives the value by move. -/
def consumeBatchOwned (r : Ring α) : (Nat × List α) × Ring α :=
  let avail := r.tail - r.head
  if avail = 0 then ((0, []), r)
  else ((avail, r.readSeq r.head avail), { r with head := r.tail })

/-- `Ring::consume_up_to` (and owned variant): reads
`to_consume = min avail max_items` slots from `head`, then
`head.store(head + to_consume)`. -/
def consumeUpTo (r : Ring α) (maxItems : Nat) : (Nat × List α) × Ring α :=
  if maxItems = 0 then ((0, []), r)
  else
    let avail := r.tail - r.head
    if avail = 0 then ((0, []), r)
    else
      let toConsume := min avail maxItems
      ((toConsume, r.readSeq r.head toConsume),
        { r with head := r.head + toConsume })

/-- `Ring::consume_up_to_owned`: same traversal and head update as
`consume_up_to`; the handler receives the value by move. -/
def consumeUpToOwned (r : Ring α) (maxItems : Nat) : (Nat × List α) × Ring α :=
  if maxItems = 0 then ((0, []), r)
  else
    let avail := r.tail - r.head
    if avail = 0 then ((0, []), r)
    else
      let toConsume := min avail maxItems
      ((toConsume, r.readSeq r.head toConsume),
        { r with head := r.head + toConsume })

/-- `Ring::readable`: fast path on `cached_tail`, slow path refreshes it from
`tail`; the returned slice is the contiguous prefix
`buffer[idx .. idx + min avail (capacity - idx))` with `idx = head & mask`. -/
def readable (r : Ring α) : Option (List α) × Ring α :=
  let head := r.head
  let avail := r.cachedTail - head
  if avail ≠ 0 then
    let idx := Nat.land head r.mask
    let contiguous := min avail (r.capacity - idx)
    (some ((List.range contiguous).map (fun i => r.buf (idx + i))), r)
  else
    let ct := r.tail
    let r1 := { r with cachedTail := ct }
    let avail2 := ct - head
    if avail2 = 0 then (none, r1)
    else
      let idx := Nat.land head r1.mask
      let contiguous := min avail2 (r1.capacity - idx)
      (some ((List.range contiguous).map (fun i => r1.buf (idx + i))), r1)

/-- `Ring::recv`: `readable()`, copy `n = min slice.len out.len` items out,
`advance(n)`.  Returns the count and the copied values. -/
def recv (r : Ring α) (outLen : Nat) : (Nat × List α) × Ring α :=
  match r.readable with
  | (none, r1) => ((0, []), r1)
  | (some slice, r1) =>
      let n := min slice.length outLen
      ((n, slice.take n), r1.advance n)

end Ring

/-- `ChannelError` from `crates/ringmpsc/src/channel.rs`. -/
inductive ChannelError where
  | tooManyProducers (max : Nat)
  | closed
deriving DecidableEq

/-- Registration state of `Channel<T>` (`channel.rs`): the producer count,
the configured cap, the closed flag, and the per-ring active flags set by
`register`.  The rings themselves are modelled separately by `Ring`. -/
structure Channel where
  producerCount : Nat
  maxProducers : Nat
  closed : Bool
  ringActive : Nat → Bool

namespace Channel

/-- `Channel::register`: fail with `Closed` on a closed channel; otherwise
`fetch_add` the producer count, roll it back with `fetch_sub` and fail with
`TooManyProducers { max }` if the claimed id is out of range, else mark ring
`id` active and return the producer handle's ring index `id`. -/
def register (c : Channel) : Except ChannelError Nat × Channel :=
  if c.closed then (.error .closed, c)
  else
    let id := c.producerCount
    let c1 := { c with producerCount := c.producerCount + 1 }
    if c.maxProducers ≤ id then
      (.error (.tooManyProducers c.maxProducers),
        { c1 with producerCount := c1.producerCount - 1 })
    else
      (.ok id, { c1 with ringActive := Function.update c1.ringActive id true })

end Channel

/-- State visible to `RingSender::try_send`
(`crates/ringmpsc-stream/src/sender.rs`): the shared shutdown flag
(`ShutdownState::is_closed`) and the producer's dedicated ring. -/
structure RingSender (α : Type) where
  shutdownClosed : Bool
  ring : Ring α

namespace RingSender

variable {α : Type}

/-- `RingSender::try_send`: returns `Err(item)` if the channel is shut down
or the producer's ring is closed; otherwise one `reserve(1)` /
write-`slice[0]` / `commit()` attempt, returning `Err(item)` (item
preserved, INV-SINK-01) if the reserve fails.  The `data_notify` pulse is
not modelled. -/
def trySend (s : RingSender α) (item : α) : Except α Unit × RingSender α :=
  if s.shutdownClosed || s.ring.closed then (.error item, s)
  else
    match s.ring.reserve 1 with
    | (some res, r1) =>
        (.ok (), { s with ring := (r1.writeRes res [item]).commit res })
    | (none, r1) => (.error item, { s with ring := r1 })

end RingSender

/-!
## Sequential protocol traces

`POp` enumerates the protocol operations a single producer and the consumer
can perform on one ring, as listed in the spec: reserve (dropped without
commit), reserve-then-commit (full, `try_commit_n`, `commit_up_to`), `push`,
`send`, `recv`, the four drain variants, and `close`.  `MState` pairs the
ring with two ghost lists: `produced` (values successfully published, in
order) and `delivered` (values handed to the consumer, in order). -/
inductive POp (α : Type) where
  | push (a : α)
  | send (xs : List α)
  | rsv (n : Nat)
  | rsvCommit (xs : List α)
  | rsvCommitN (xs : List α) (k : Nat)
  | rsvCommitUpTo (xs : List α) (k : Nat)
  | recv (m : Nat)
  | consumeBatch
  | consumeBatchOwned
  | consumeUpTo (m : Nat)
  | consumeUpToOwned (m : Nat)
  | close

/-- A ring together with the ghost production/delivery histories. -/
structure MState (α : Type) where
  ring : Ring α
  produced : List α
  delivered : List α

/-- One step of the sequential protocol.  Producer ops reserve
`xs.length` slots, write `xs` into the returned slice (the slice holds
`res.len ≤ xs.length` values) and commit; drains append the values passed to
the handler to `delivered`; `recv` appends the values copied out. -/
def stepOp {α : Type} (o : POp α) (s : MState α) : MState α :=
  match o with
  | .push a =>
      match s.ring.reserve 1 with
      | (none, r1) => { s with ring := r1 }
      | (some res, r1) =>
          { s with ring := (r1.writeRes res [a]).commit res,
                   produced := s.produced ++ [a].take res.len }
  | .send xs =>
      match s.ring.reserve xs.length with
      | (none, r1) => { s with ring := r1 }
      | (some res, r1) =>
          { s with ring := (r1.writeRes res xs).commit res,
                   produced := s.produced ++ xs.take res.len }
  | .rsv n => { s with ring := (s.ring.reserve n).2 }
  | .rsvCommit xs =>
      match s.ring.reserve xs.length with
      | (none, r1) => { s with ring := r1 }
      | (some res, r1) =>
          { s with ring := (r1.writeRes res xs).commit res,
                   produced := s.produced ++ xs.take res.len }
  | .rsvCommitN xs k =>
      match s.ring.reserve xs.length with
      | (none, r1) => { s with ring := r1 }
      | (some res, r1) =>
          match (r1.writeRes res xs).tryCommitN res k with
          | (.error _, r2) => { s with ring := r2 }
          | (.ok _, r2) =>
              { s with ring := r2,
                       produced := s.produced ++ (xs.take res.len).take k }
  | .rsvCommitUpTo xs k =>
      match s.ring.reserve xs.length with
      | (none, r1) => { s with ring := r1 }
      | (some res, r1) =>
          let r2 := ((r1.writeRes res xs).commitUpTo res k).2
          { s with ring := r2,
                   produced := s.produced ++ (xs.take res.len).take (min k res.len) }
  | .recv m =>
      let ((_, vals), r1) := s.ring.recv m
      { s with ring := r1, delivered := s.delivered ++ vals }
  | .consumeBatch =>
      let ((_, vals), r1) := s.ring.consumeBatch
      { s with ring := r1, delivered := s.delivered ++ vals }
  | .consumeBatchOwned =>
      let ((_, vals), r1) := s.ring.consumeBatchOwned
      { s with ring := r1, delivered := s.delivered ++ vals }
  | .consumeUpTo m =>
      let ((_, vals), r1) := s.ring.consumeUpTo m
      { s with ring := r1, delivered := s.delivered ++ vals }
  | .consumeUpToOwned m =>
      let ((_, vals), r1) := s.ring.consumeUpToOwned m
      { s with ring := r1, delivered := s.delivered ++ vals }
  | .close => { s with ring := s.ring.close }

/-- Run a trace of protocol operations. -/
def runOps {α : Type} (ops : List (POp α)) (s : MState α) : MState α :=
  ops.foldl (fun s o => stepOp o s) s

/-- The initial state: a fresh ring and empty histories. -/
def initState {α : Type} (bits : Nat) (d : α) : MState α :=
  { ring := Ring.new { ringBits := bits, maxProducers := 16, enableMetrics := false } d,
    produced := [], delivered := [] }

/-- The published-but-undrained values of the ring: the contents of slots
`(head + i) & mask` for `i < tail - head`, in FIFO order. -/
def Ring.pendingList {α : Type} (r : Ring α) : List α :=
  (List.range (r.tail - r.head)).map (fun i => r.buf ((r.head + i) % r.capacity))

/-- Well-formedness of a ring state: the caches lag their sources and the
occupancy is within capacity.  These hold in every reachable state. -/
def Ring.WF {α : Type} (r : Ring α) : Prop :=
  r.cachedHead ≤ r.head ∧ r.cachedTail ≤ r.tail ∧ r.head ≤ r.tail ∧
    r.tail ≤ r.head + r.capacity

/-- The trace invariant: the ring is well-formed and the published sequence
is exactly the delivered sequence followed by the pending ring contents. -/
def MInv {α : Type} (s : MState α) : Prop :=
  s.ring.WF ∧ s.produced = s.delivered ++ s.ring.pendingList

/-- The operations the C1 claim ranges over: single-producer publishes
(`push`, `send`, reserve-then-commit) and consumer drains. -/
def isC1Op {α : Type} : POp α → Bool
  | .push _ => true
  | .send _ => true
  | .rsvCommit _ => true
  | .rsvCommitN _ _ => true
  | .rsvCommitUpTo _ _ => true
  | .consumeBatch => true
  | .consumeBatchOwned => true
  | .consumeUpTo _ => true
  | .consumeUpToOwned _ => true
  | _ => false

/-!
## Helper lemmas: index arithmetic and buffer writes
-/

namespace Ring

variable {α : Type}

theorem capacity_pos (r : Ring α) : 0 < r.capacity :=
  Nat.pos_pow_of_pos _ (by decide)

theorem land_mask_eq_mod (r : Ring α) (p : Nat) :
    Nat.land p r.mask = p % r.capacity := by
  have h := Nat.and_pow_two_sub_one_eq_mod p r.config.ringBits
  simpa [Ring.mask, Ring.capacity, Config.mask, Config.capacity,
    HAnd.hAnd, AndOp.and] using h

end Ring

/-- If `p % c + i` stays below `c`, then adding `i` commutes with `% c`. -/
theorem mod_add_of_lt {p i c : Nat} (h : p % c + i < c) :
    (p + i) % c = p % c + i := by
  have h1 : (p % c + i) % c = (p + i) % c := Nat.mod_add_mod p c i
  rw [← h1, Nat.mod_eq_of_lt h]

/-- Two sequence numbers less than a capacity apart map to distinct slots. -/
theorem mod_ne_of_window {x y c : Nat} (hxy : x < y) (hyc : y < x + c) :
    x % c ≠ y % c := by
  intro h
  have hdvd : c ∣ y - x := (Nat.modEq_iff_dvd' (Nat.le_of_lt hxy)).1 h
  have hle : c ≤ y - x := Nat.le_of_dvd (by omega) hdvd
  omega

theorem writeSeq_out {α : Type} (xs : List α) :
    ∀ (buf : Nat → α) (idx j : Nat), (j < idx ∨ idx + xs.length ≤ j) →
      writeSeq buf idx xs j = buf j := by
  induction xs with
  | nil => intro buf idx j _; rfl
  | cons x t ih =>
      intro buf idx j hj
      show writeSeq (Function.update buf idx x) (idx + 1) t j = buf j
      rw [ih (Function.update buf idx x) (idx + 1) j (by simp at hj ⊢; omega)]
      have : j ≠ idx := by simp at hj; omega
      simp [Function.update, this]

theorem writeSeq_in {α : Type} (xs : List α) :
    ∀ (buf : Nat → α) (idx i : Nat) (h : i < xs.length),
      writeSeq buf idx xs (idx + i) = xs.get ⟨i, h⟩ := by
  induction xs with
  | nil => intro buf idx i h; simp at h
  | cons x t ih =>
      intro buf idx i h
      show writeSeq (Function.update buf idx x) (idx + 1) t (idx + i) = _
      match i with
      | 0 =>
          rw [writeSeq_out t (Function.update buf idx x) (idx + 1) (idx + 0)
            (Or.inl (by omega))]
          simp [Function.update]
      | i + 1 =>
          have : idx + (i + 1) = (idx + 1) + i := by omega
          rw [this, ih (Function.update buf idx x) (idx + 1) i (by simpa using h)]
          rfl

/-!
## Reserve characterization
-/

namespace Ring

variable {α : Type}

/-- `reserve` only ever touches the producer's head cache: every other field
of the returned ring equals the input's, and the cache is either untouched
or refreshed to `head`. -/
theorem reserve_snd_fields (r : Ring α) (n : Nat) :
    (r.reserve n).2.config = r.config ∧ (r.reserve n).2.tail = r.tail ∧
    (r.reserve n).2.head = r.head ∧ (r.reserve n).2.cachedTail = r.cachedTail ∧
    (r.reserve n).2.closed = r.closed ∧ (r.reserve n).2.buf = r.buf ∧
    ((r.reserve n).2.cachedHead = r.cachedHead ∨ (r.reserve n).2.cachedHead = r.head) := by
  by_cases h0 : n = 0 ∨ r.capacity < n
  · simp [reserve, h0]
  · by_cases hfast : n ≤ r.capacity - (r.tail - r.cachedHead)
    · simp [reserve, h0, hfast]
    · by_cases hslow : r.capacity - (r.tail - r.head) < n
      · simp [reserve, h0, hfast, hslow]
      · simp [reserve, h0, hfast, hslow]

/-- Under the cache-lag invariant, `reserve` fails exactly on out-of-range
`n` or insufficient true free space, and otherwise returns the reservation
made at the current tail.  (The stale cache only ever undercounts free
space, so the slow-path refresh makes the outcome exact.) -/
theorem reserve_fst_eq (r : Ring α) (n : Nat)
    (hch : r.cachedHead ≤ r.head) (hht : r.head ≤ r.tail) :
    (r.reserve n).1 =
      if n = 0 ∨ r.capacity < n ∨ r.capacity - (r.tail - r.head) < n then none
      else some (r.makeReservation r.tail n) := by
  by_cases h0 : n = 0 ∨ r.capacity < n
  · rw [if_pos (by tauto)]
    simp [reserve, h0]
  · push_neg at h0
    by_cases hfast : n ≤ r.capacity - (r.tail - r.cachedHead)
    · rw [if_neg (by push_neg; exact ⟨h0.1, h0.2, by omega⟩)]
      simp [reserve, h0.1, h0.2, hfast, Nat.not_lt.2 h0.2]
    · by_cases hslow : r.capacity - (r.tail - r.head) < n
      · rw [if_pos (by tauto)]
        simp [reserve, h0.1, h0.2, hfast, hslow, Nat.not_lt.2 h0.2]
      · rw [if_neg (by push_neg; exact ⟨h0.1, h0.2, by omega⟩)]
        have hc : ¬ r.config.capacity < n := Nat.not_lt.2 h0.2
        have hf : ¬ n ≤ r.config.capacity - (r.tail - r.cachedHead) := hfast
        have hs : ¬ r.config.capacity - (r.tail - r.head) < n := hslow
        simp [reserve, h0.1, hc, hf, hs, makeReservation, Ring.mask, Ring.capacity]

/-- Unpacking a successful `reserve`: the reservation sits at the current
tail, its slice starts at slot `tail % capacity`, its length is
`min n (capacity - tail % capacity)`, and the true free space covered the
request. -/
theorem reserve_some_spec (r : Ring α) (n : Nat) (res : ResInfo)
    (hch : r.cachedHead ≤ r.head) (hht : r.head ≤ r.tail)
    (hr : (r.reserve n).1 = some res) :
    res.start = r.tail ∧ res.idx = r.tail % r.capacity ∧
    res.len = min n (r.capacity - r.tail % r.capacity) ∧
    1 ≤ n ∧ n ≤ r.capacity ∧ n ≤ r.capacity - (r.tail - r.head) := by
  rw [reserve_fst_eq r n hch hht] at hr
  split at hr
  · exact absurd hr (by simp)
  · next hcond =>
      push_neg at hcond
      obtain ⟨h0, hle, hsp⟩ := hcond
      have hres : res = r.makeReservation r.tail n := by
        exact (Option.some.inj hr).symm
      subst hres
      refine ⟨rfl, ?_, ?_, by omega, by omega, by omega⟩
      · show Nat.land r.tail r.mask = _
        exact r.land_mask_eq_mod r.tail
      · show min n (r.capacity - Nat.land r.tail r.mask) = _
        rw [r.land_mask_eq_mod r.tail]

/-!
## Pending contents under the protocol operations
-/

/-- `pendingList` depends only on `config`, `tail`, `head` and the buffer. -/
theorem pendingList_eq_of (r r1 : Ring α) (hc : r1.config = r.config)
    (ht : r1.tail = r.tail) (hh : r1.head = r.head) (hb : r1.buf = r.buf) :
    r1.pendingList = r.pendingList := by
  simp [Ring.pendingList, Ring.capacity, hc, ht, hh, hb]

theorem pendingList_length (r : Ring α) :
    r.pendingList.length = r.tail - r.head := by
  simp [Ring.pendingList]

/-- Central publish lemma: writing `xs` into a freshly reserved slice at the
wrap-free region `[idx, idx + len)` with `idx = tail % capacity` and then
committing `k ≤ min xs.length len` slots appends exactly `xs.take k` to the
pending contents. -/
theorem pendingList_write_commit (r : Ring α) (res : ResInfo) (xs : List α)
    (k : Nat) (hidx : res.idx = r.tail % r.capacity)
    (hlen : res.idx + res.len ≤ r.capacity)
    (hk1 : k ≤ xs.length) (hk2 : k ≤ res.len)
    (hh : r.head ≤ r.tail) (hcap : r.tail + res.len ≤ r.head + r.capacity) :
    ((r.writeRes res xs).commitInternal k).pendingList =
      r.pendingList ++ xs.take k := by
  have hcpos : 0 < r.capacity := r.capacity_pos
  have hidxlt : res.idx < r.capacity := by
    rw [hidx]; exact Nat.mod_lt _ hcpos
  have hwlen : (xs.take res.len).length = min xs.length res.len := by
    simp [Nat.min_comm]
  apply List.ext_getElem
  · rw [pendingList_length, List.length_append, List.length_take,
      pendingList_length]
    show r.tail + k - r.head = r.tail - r.head + min k xs.length
    rw [Nat.min_eq_left hk1]
    omega
  · intro i h1 h2
    have hlen1 : ((r.writeRes res xs).commitInternal k).pendingList.length
        = (r.tail - r.head) + k := by
      rw [pendingList_length]
      show r.tail + k - r.head = _
      omega
    have hi : i < (r.tail - r.head) + k := by omega
    have hget : ((r.writeRes res xs).commitInternal k).pendingList[i] =
        writeSeq r.buf res.idx (xs.take res.len) ((r.head + i) % r.capacity) := by
      simp [Ring.pendingList, Ring.commitInternal, Ring.writeRes, Ring.capacity]
    rw [hget]
    by_cases hcase : i < r.tail - r.head
    · -- reads below the old tail are untouched by the writes
      have hout : writeSeq r.buf res.idx (xs.take res.len) ((r.head + i) % r.capacity)
          = r.buf ((r.head + i) % r.capacity) := by
        apply writeSeq_out
        rw [hwlen]
        by_contra hcon
        push_neg at hcon
        obtain ⟨hc1, hc2⟩ := hcon
        set p := (r.head + i) % r.capacity with hp
        have hj : p = res.idx + (p - res.idx) := by omega
        set j := p - res.idx with hjdef
        have hjlt : j < min xs.length res.len := by omega
        have hjlen : j < res.len := lt_of_lt_of_le hjlt (Nat.min_le_right _ _)
        have hpj : (r.tail + j) % r.capacity = res.idx + j := by
          rw [mod_add_of_lt]
          · rw [hidx]
          · rw [← hidx]; omega
        have hne : (r.head + i) % r.capacity ≠ (r.tail + j) % r.capacity := by
          apply mod_ne_of_window
          · omega
          · omega
        rw [hpj] at hne
        omega
      rw [hout]
      have hip : i < r.pendingList.length := by rw [pendingList_length]; omega
      have hsplit : (r.pendingList ++ xs.take k)[i] = r.pendingList[i] :=
        List.getElem_append_left hip
      rw [hsplit]
      simp [Ring.pendingList]
    · -- reads in `[tail, tail + k)` see the freshly written values
      have hj : i = (r.tail - r.head) + (i - (r.tail - r.head)) := by omega
      set j := i - (r.tail - r.head) with hjdef
      have hjk : j < k := by omega
      have hseq : r.head + i = r.tail + j := by omega
      have hpj : (r.tail + j) % r.capacity = res.idx + j := by
        rw [mod_add_of_lt]
        · rw [hidx]
        · rw [← hidx]; omega
      rw [hseq, hpj]
      have hjw : j < (xs.take res.len).length := by
        rw [hwlen]
        exact lt_of_lt_of_le hjk (le_min hk1 hk2)
      rw [writeSeq_in (xs.take res.len) r.buf res.idx j hjw]
      have hplen : r.pendingList.length ≤ i := by rw [pendingList_length]; omega
      have hjtk : j < (xs.take k).length := by
        rw [List.length_take, Nat.min_eq_left hk1]
        omega
      have hright : (r.pendingList ++ xs.take k)[i] = (xs.take k)[j] := by
        rw [List.getElem_append_right hplen]
        congr 1
        rw [pendingList_length]
      rw [hright]
      have hjx : j < xs.length := by omega
      have hleft : (xs.take res.len).get ⟨j, hjw⟩ = xs[j] := by
        simp [List.getElem_take]
      have hrightv : (xs.take k)[j] = xs[j] := by
        simp [List.getElem_take]
      rw [hleft, hrightv]

/-- The slots a drain traverses are exactly a prefix of the pending list. -/
theorem readSeq_eq_pending_take (r : Ring α) (count : Nat)
    (hc : count ≤ r.tail - r.head) :
    r.readSeq r.head count = r.pendingList.take count := by
  apply List.ext_getElem
  · simp [Ring.readSeq, pendingList_length]
    omega
  · intro i h1 h2
    simp only [Ring.readSeq, List.getElem_map, List.getElem_range,
      List.getElem_take, Ring.pendingList]
    rw [r.land_mask_eq_mod]

/-- Advancing the head by `k` drops the first `k` pending values. -/
theorem pendingList_advance_drop (r : Ring α) (k : Nat) :
    ({ r with head := r.head + k } : Ring α).pendingList =
      r.pendingList.drop k := by
  apply List.ext_getElem
  · simp [pendingList_length, Ring.pendingList]
    omega
  · intro i h1 h2
    simp only [Ring.pendingList, List.getElem_map, List.getElem_range,
      List.getElem_drop, Ring.capacity]
    congr 1
    congr 1
    omega

/-- Setting the head to the tail empties the pending list. -/
theorem pendingList_drain_all (r : Ring α) :
    ({ r with head := r.tail } : Ring α).pendingList = [] := by
  simp [Ring.pendingList]

/-- The contiguous prefix handed out by `readable` is a prefix of the
pending list. -/
theorem rawslice_eq_pending_take (r : Ring α) (contiguous : Nat)
    (hcont : contiguous ≤ r.capacity - r.head % r.capacity)
    (hav : contiguous ≤ r.tail - r.head) :
    (List.range contiguous).map (fun i => r.buf (Nat.land r.head r.mask + i))
      = r.pendingList.take contiguous := by
  have hcpos : 0 < r.capacity := r.capacity_pos
  have hhlt : r.head % r.capacity < r.capacity := Nat.mod_lt _ hcpos
  apply List.ext_getElem
  · simp [pendingList_length]
    omega
  · intro i h1 h2
    simp only [List.getElem_map, List.getElem_range, List.getElem_take,
      Ring.pendingList]
    rw [r.land_mask_eq_mod]
    have hlt : i < contiguous := by simpa using h1
    rw [mod_add_of_lt (by omega)]

/-- Unpacking a successful publish: under well-formedness, a
reserve-write-commit of `k ≤ res.len` slots keeps the ring well-formed,
advances the tail by exactly `k`, leaves the head alone, and appends
`xs.take k` to the pending contents. -/
theorem publish_spec (r : Ring α) (n k : Nat) (xs : List α) (res : ResInfo)
    (r1 : Ring α) (hwf : r.WF) (hres : r.reserve n = (some res, r1))
    (hnx : n ≤ xs.length) (hk : k ≤ res.len) :
    ((r1.writeRes res xs).commitInternal k).WF ∧
    ((r1.writeRes res xs).commitInternal k).tail = r.tail + k ∧
    ((r1.writeRes res xs).commitInternal k).head = r.head ∧
    ((r1.writeRes res xs).commitInternal k).closed = r.closed ∧
    ((r1.writeRes res xs).commitInternal k).pendingList =
      r.pendingList ++ xs.take k := by
  obtain ⟨hch, hct, hht, hocc⟩ := hwf
  have hfst : (r.reserve n).1 = some res := by rw [hres]
  have hsnd : (r.reserve n).2 = r1 := by rw [hres]
  obtain ⟨hstart, hidx, hlen, hn1, hncap, hspace⟩ :=
    r.reserve_some_spec n res hch hht hfst
  obtain ⟨f1, f2, f3, f4, f5, f6, f7⟩ := r.reserve_snd_fields n
  rw [hsnd] at f1 f2 f3 f4 f5 f6 f7
  have hcpos : 0 < r.capacity := r.capacity_pos
  have hcap1 : r1.capacity = r.capacity := by
    simp [Ring.capacity, f1]
  have hmodlt : r.tail % r.capacity < r.capacity := Nat.mod_lt _ hcpos
  have hreslen : res.len ≤ n := by rw [hlen]; exact Nat.min_le_left _ _
  have hresid : res.idx + res.len ≤ r.capacity := by
    rw [hidx, hlen]
    have := Nat.min_le_right n (r.capacity - r.tail % r.capacity)
    omega
  have htmost : r.tail + res.len ≤ r.head + r.capacity := by omega
  have hpend1 : r1.pendingList = r.pendingList :=
    pendingList_eq_of r r1 f1 f2 f3 f6
  have hmain : ((r1.writeRes res xs).commitInternal k).pendingList =
      r1.pendingList ++ xs.take k := by
    apply pendingList_write_commit
    · rw [hcap1, f2, hidx]
    · rw [hcap1]; exact hresid
    · omega
    · exact hk
    · rw [f2, f3]; exact hht
    · rw [hcap1, f2, f3]; exact htmost
  have hch1 : r1.cachedHead ≤ r1.head := by
    rcases f7 with h | h
    · rw [h, f3]; exact hch
    · rw [h, f3]
  refine ⟨⟨?_, ?_, ?_, ?_⟩, ?_, ?_, ?_, ?_⟩
  · show r1.cachedHead ≤ r1.head
    exact hch1
  · show r1.cachedTail ≤ r1.tail + k
    rw [f4, f2]; omega
  · show r1.head ≤ r1.tail + k
    rw [f3, f2]; omega
  · show r1.tail + k ≤ r1.head + ((r1.writeRes res xs).commitInternal k).capacity
    have : ((r1.writeRes res xs).commitInternal k).capacity = r.capacity := by
      simp [Ring.capacity, Ring.commitInternal, Ring.writeRes, f1]
    rw [this, f2, f3]
    omega
  · show r1.tail + k = r.tail + k
    rw [f2]
  · show r1.head = r.head
    exact f3
  · show r1.closed = r.closed
    exact f5
  · rw [hmain, hpend1]

/-- `readable` only ever touches the consumer's tail cache. -/
theorem readable_snd_fields (r : Ring α) :
    (r.readable).2.config = r.config ∧ (r.readable).2.tail = r.tail ∧
    (r.readable).2.head = r.head ∧ (r.readable).2.cachedHead = r.cachedHead ∧
    (r.readable).2.closed = r.closed ∧ (r.readable).2.buf = r.buf ∧
    ((r.readable).2.cachedTail = r.cachedTail ∨ (r.readable).2.cachedTail = r.tail) := by
  by_cases h : r.cachedTail - r.head = 0
  · by_cases h2 : r.tail - r.head = 0
    · simp [readable, h, h2]
    · simp [readable, h, h2]
  · simp [readable, h]

/-- A slice returned by `readable` is a prefix of the pending list: the
stale tail cache only ever undercounts what is available. -/
theorem readable_some_spec (r : Ring α) (slice : List α)
    (hct : r.cachedTail ≤ r.tail) (hh : r.head ≤ r.tail)
    (hr : (r.readable).1 = some slice) :
    slice.length ≤ r.tail - r.head ∧
      slice = r.pendingList.take slice.length := by
  have hcpos : 0 < r.capacity := r.capacity_pos
  have hmod : r.head % r.capacity < r.capacity := Nat.mod_lt _ hcpos
  by_cases h : r.cachedTail - r.head = 0
  · by_cases h2 : r.tail - r.head = 0
    · simp [readable, h, h2] at hr
    · -- slow path: refreshed cache, avail = tail - head
      have hsl : slice = (List.range (min (r.tail - r.head)
            (r.capacity - Nat.land r.head r.mask))).map
          (fun i => r.buf (Nat.land r.head r.mask + i)) := by
        simp [readable, h, h2] at hr
        exact hr.symm
      set contiguous := min (r.tail - r.head) (r.capacity - Nat.land r.head r.mask)
        with hcont
      have hc1 : contiguous ≤ r.capacity - r.head % r.capacity := by
        rw [hcont, r.land_mask_eq_mod]
        exact Nat.min_le_right _ _
      have hc2 : contiguous ≤ r.tail - r.head := Nat.min_le_left _ _
      have hslice := r.rawslice_eq_pending_take contiguous hc1 hc2
      have hlen : slice.length = contiguous := by
        rw [hsl]; simp
      constructor
      · rw [hlen]; exact hc2
      · rw [hlen, hsl, hslice]
  · -- fast path: stale cache, avail = cachedTail - head
    have hsl : slice = (List.range (min (r.cachedTail - r.head)
          (r.capacity - Nat.land r.head r.mask))).map
        (fun i => r.buf (Nat.land r.head r.mask + i)) := by
      simp [readable, h] at hr
      exact hr.symm
    set contiguous := min (r.cachedTail - r.head)
        (r.capacity - Nat.land r.head r.mask) with hcont
    have hc1 : contiguous ≤ r.capacity - r.head % r.capacity := by
      rw [hcont, r.land_mask_eq_mod]
      exact Nat.min_le_right _ _
    have hc2 : contiguous ≤ r.tail - r.head := by
      have := Nat.min_le_left (r.cachedTail - r.head)
        (r.capacity - Nat.land r.head r.mask)
      omega
    have hslice := r.rawslice_eq_pending_take contiguous hc1 hc2
    have hlen : slice.length = contiguous := by
      rw [hsl]; simp
    constructor
    · rw [hlen]; exact hc2
    · rw [hlen, hsl, hslice]

/-- `advance` drops a prefix of the pending list. -/
theorem pendingList_advance (r : Ring α) (k : Nat) :
    (r.advance k).pendingList = r.pendingList.drop k :=
  pendingList_advance_drop r k

end Ring

/-!
## The trace invariant
-/

/-- Replacing the ring by the second component of a `reserve` (a failed or
dropped reservation) preserves the invariant and moves neither counter. -/
theorem minv_set_ring_reserve {α : Type} (s : MState α) (n : Nat)
    (r1 : Ring α) (hinv : MInv s) (heq : (s.ring.reserve n).2 = r1) :
    MInv { s with ring := r1 } ∧ r1.tail = s.ring.tail ∧
      r1.head = s.ring.head := by
  obtain ⟨⟨hch, hct, hht, hocc⟩, hpp⟩ := hinv
  obtain ⟨f1, f2, f3, f4, f5, f6, f7⟩ := s.ring.reserve_snd_fields n
  rw [heq] at f1 f2 f3 f4 f5 f6 f7
  have hpend : r1.pendingList = s.ring.pendingList :=
    Ring.pendingList_eq_of s.ring r1 f1 f2 f3 f6
  refine ⟨⟨⟨?_, ?_, ?_, ?_⟩, ?_⟩, f2, f3⟩
  · show r1.cachedHead ≤ r1.head
    rcases f7 with h | h
    · rw [h, f3]; exact hch
    · rw [h, f3]
  · show r1.cachedTail ≤ r1.tail
    rw [f4, f2]; exact hct
  · show r1.head ≤ r1.tail
    rw [f3, f2]; exact hht
  · show r1.tail ≤ r1.head + r1.capacity
    have : r1.capacity = s.ring.capacity := by simp [Ring.capacity, f1]
    rw [f3, f2, this]; exact hocc
  · show s.produced = s.delivered ++ r1.pendingList
    rw [hpend]; exact hpp

/-- A successful reserve-write-commit of `k ≤ res.len` slots preserves the
invariant, appending `xs.take k` to the published history. -/
theorem minv_publish {α : Type} (s : MState α) (n k : Nat) (xs : List α)
    (res : ResInfo) (r1 : Ring α) (hinv : MInv s)
    (hres : s.ring.reserve n = (some res, r1))
    (hnx : n ≤ xs.length) (hk : k ≤ res.len) :
    MInv { ring := (r1.writeRes res xs).commitInternal k,
           produced := s.produced ++ xs.take k,
           delivered := s.delivered } ∧
    ((r1.writeRes res xs).commitInternal k).tail = s.ring.tail + k ∧
    ((r1.writeRes res xs).commitInternal k).head = s.ring.head := by
  obtain ⟨hwf, hpp⟩ := hinv
  obtain ⟨hwf2, htl, hhd, hcl, hpend⟩ :=
    s.ring.publish_spec n k xs res r1 hwf hres hnx hk
  refine ⟨⟨hwf2, ?_⟩, htl, hhd⟩
  show s.produced ++ xs.take k = s.delivered ++ _
  rw [hpend, hpp, List.append_assoc]

/-- One protocol step preserves the trace invariant, and never decreases
either sequence counter. -/
theorem minv_stepOp {α : Type} (o : POp α) (s : MState α) (hinv : MInv s) :
    MInv (stepOp o s) ∧ s.ring.tail ≤ (stepOp o s).ring.tail ∧
      s.ring.head ≤ (stepOp o s).ring.head := by
  have hinv2 := hinv
  obtain ⟨⟨hch, hct, hht, hocc⟩, hpp⟩ := hinv
  cases o with
  | push a =>
      simp only [stepOp]
      split
      · next r1 heq =>
          obtain ⟨hi, ht, hh2⟩ := minv_set_ring_reserve s 1 r1 hinv2 (by rw [heq])
          exact ⟨hi, le_of_eq ht.symm, le_of_eq hh2.symm⟩
      · next res r1 heq =>
          obtain ⟨hi, ht, hh2⟩ := minv_publish s 1 res.len [a] res r1 hinv2 heq
            (by simp) le_rfl
          refine ⟨hi, ?_, ?_⟩
          · show s.ring.tail ≤ ((r1.writeRes res [a]).commitInternal res.len).tail
            rw [ht]; exact Nat.le_add_right _ _
          · show s.ring.head ≤ ((r1.writeRes res [a]).commitInternal res.len).head
            rw [hh2]
  | send xs =>
      simp only [stepOp]
      split
      · next r1 heq =>
          obtain ⟨hi, ht, hh2⟩ :=
            minv_set_ring_reserve s xs.length r1 hinv2 (by rw [heq])
          exact ⟨hi, le_of_eq ht.symm, le_of_eq hh2.symm⟩
      · next res r1 heq =>
          obtain ⟨hi, ht, hh2⟩ := minv_publish s xs.length res.len xs res r1
            hinv2 heq le_rfl le_rfl
          refine ⟨hi, ?_, ?_⟩
          · show s.ring.tail ≤ ((r1.writeRes res xs).commitInternal res.len).tail
            rw [ht]; exact Nat.le_add_right _ _
          · show s.ring.head ≤ ((r1.writeRes res xs).commitInternal res.len).head
            rw [hh2]
  | rsv n =>
      simp only [stepOp]
      obtain ⟨hi, ht, hh2⟩ :=
        minv_set_ring_reserve s n (s.ring.reserve n).2 hinv2 rfl
      exact ⟨hi, le_of_eq ht.symm, le_of_eq hh2.symm⟩
  | rsvCommit xs =>
      simp only [stepOp]
      split
      · next r1 heq =>
          obtain ⟨hi, ht, hh2⟩ :=
            minv_set_ring_reserve s xs.length r1 hinv2 (by rw [heq])
          exact ⟨hi, le_of_eq ht.symm, le_of_eq hh2.symm⟩
      · next res r1 heq =>
          obtain ⟨hi, ht, hh2⟩ := minv_publish s xs.length res.len xs res r1
            hinv2 heq le_rfl le_rfl
          refine ⟨hi, ?_, ?_⟩
          · show s.ring.tail ≤ ((r1.writeRes res xs).commitInternal res.len).tail
            rw [ht]; exact Nat.le_add_right _ _
          · show s.ring.head ≤ ((r1.writeRes res xs).commitInternal res.len).head
            rw [hh2]
  | rsvCommitN xs k =>
      simp only [stepOp]
      split
      · next r1 heq =>
          obtain ⟨hi, ht, hh2⟩ :=
            minv_set_ring_reserve s xs.length r1 hinv2 (by rw [heq])
          exact ⟨hi, le_of_eq ht.symm, le_of_eq hh2.symm⟩
      · next res r1 heq =>
          by_cases hk2 : res.len < k
          · -- over-commit: error, tail untouched, the writes are unpublished
            simp only [Ring.tryCommitN, if_pos hk2]
            obtain ⟨hi0, ht0, hh0⟩ := minv_publish s xs.length 0 xs res r1
              hinv2 heq le_rfl (Nat.zero_le _)
            obtain ⟨⟨g1, g2, g3, g4⟩, gp⟩ := hi0
            have hw0 : ((r1.writeRes res xs).commitInternal 0).pendingList
                = (r1.writeRes res xs).pendingList :=
              Ring.pendingList_eq_of _ _ rfl rfl rfl rfl
            refine ⟨⟨⟨?_, ?_, ?_, ?_⟩, ?_⟩, ?_, ?_⟩
            · exact g1
            · exact g2
            · exact g3
            · exact g4
            · show s.produced = s.delivered ++ (r1.writeRes res xs).pendingList
              rw [← hw0]
              simpa using gp
            · show s.ring.tail ≤ (r1.writeRes res xs).tail
              have he : ((r1.writeRes res xs).commitInternal 0).tail
                  = (r1.writeRes res xs).tail := rfl
              rw [← he, ht0]
              exact Nat.le_add_right _ _
            · show s.ring.head ≤ (r1.writeRes res xs).head
              exact le_of_eq hh0.symm
          · -- valid commit of k ≤ len slots
            simp only [Ring.tryCommitN, if_neg hk2]
            have hg : (xs.take res.len).take k = xs.take k := by
              rw [List.take_take, Nat.min_eq_left (by omega)]
            obtain ⟨hi, ht, hh2⟩ := minv_publish s xs.length k xs res r1
              hinv2 heq le_rfl (by omega)
            rw [hg]
            refine ⟨hi, ?_, ?_⟩
            · show s.ring.tail ≤ ((r1.writeRes res xs).commitInternal k).tail
              rw [ht]; exact Nat.le_add_right _ _
            · show s.ring.head ≤ ((r1.writeRes res xs).commitInternal k).head
              rw [hh2]
  | rsvCommitUpTo xs k =>
      simp only [stepOp]
      split
      · next r1 heq =>
          obtain ⟨hi, ht, hh2⟩ :=
            minv_set_ring_reserve s xs.length r1 hinv2 (by rw [heq])
          exact ⟨hi, le_of_eq ht.symm, le_of_eq hh2.symm⟩
      · next res r1 heq =>
          have hg : (xs.take res.len).take (min k res.len)
              = xs.take (min k res.len) := by
            rw [List.take_take, Nat.min_eq_left (Nat.min_le_right _ _)]
          obtain ⟨hi, ht, hh2⟩ := minv_publish s xs.length (min k res.len) xs
            res r1 hinv2 heq le_rfl (Nat.min_le_right _ _)
          rw [hg]
          refine ⟨hi, ?_, ?_⟩
          · show s.ring.tail ≤
              ((r1.writeRes res xs).commitInternal (min k res.len)).tail
            rw [ht]; exact Nat.le_add_right _ _
          · show s.ring.head ≤
              ((r1.writeRes res xs).commitInternal (min k res.len)).head
            rw [hh2]
  | recv m =>
      simp only [stepOp, Ring.recv]
      split
      · next r1 heq =>
          obtain ⟨f1, f2, f3, f4, f5, f6, f7⟩ := s.ring.readable_snd_fields
          have hsnd : (s.ring.readable).2 = r1 := by rw [heq]
          rw [hsnd] at f1 f2 f3 f4 f5 f6 f7
          have hpend : r1.pendingList = s.ring.pendingList :=
            Ring.pendingList_eq_of s.ring r1 f1 f2 f3 f6
          refine ⟨⟨⟨?_, ?_, ?_, ?_⟩, ?_⟩, le_of_eq f2.symm, le_of_eq f3.symm⟩
          · show r1.cachedHead ≤ r1.head
            rw [f4, f3]; exact hch
          · show r1.cachedTail ≤ r1.tail
            rcases f7 with h | h
            · rw [h, f2]; exact hct
            · rw [h, f2]
          · show r1.head ≤ r1.tail
            rw [f3, f2]; exact hht
          · show r1.tail ≤ r1.head + r1.capacity
            have : r1.capacity = s.ring.capacity := by simp [Ring.capacity, f1]
            rw [f3, f2, this]; exact hocc
          · show s.produced = s.delivered ++ [] ++ r1.pendingList
            rw [hpend]; simpa using hpp
      · next slice r1 heq =>
          obtain ⟨f1, f2, f3, f4, f5, f6, f7⟩ := s.ring.readable_snd_fields
          have hsnd : (s.ring.readable).2 = r1 := by rw [heq]
          rw [hsnd] at f1 f2 f3 f4 f5 f6 f7
          have hpend : r1.pendingList = s.ring.pendingList :=
            Ring.pendingList_eq_of s.ring r1 f1 f2 f3 f6
          have hfst : (s.ring.readable).1 = some slice := by rw [heq]
          obtain ⟨hsl1, hsl2⟩ := s.ring.readable_some_spec slice hct hht hfst
          set n := min slice.length m with hn
          have hnle : n ≤ slice.length := Nat.min_le_left _ _
          have hnth : n ≤ s.ring.tail - s.ring.head := le_trans hnle hsl1
          have hvals : slice.take n = s.ring.pendingList.take n := by
            rw [hsl2, List.take_take, Nat.min_eq_left hnle]
          have hadv : (r1.advance n).pendingList
              = s.ring.pendingList.drop n := by
            rw [Ring.pendingList_advance, hpend]
          refine ⟨⟨⟨?_, ?_, ?_, ?_⟩, ?_⟩, ?_, ?_⟩
          · show r1.cachedHead ≤ r1.head + n
            rw [f4, f3]; omega
          · show r1.cachedTail ≤ r1.tail
            rcases f7 with h | h
            · rw [h, f2]; exact hct
            · rw [h, f2]
          · show r1.head + n ≤ r1.tail
            rw [f3, f2]; omega
          · show r1.tail ≤ r1.head + n + (r1.advance n).capacity
            have : (r1.advance n).capacity = s.ring.capacity := by
              simp [Ring.capacity, Ring.advance, f1]
            rw [f3, f2, this]; omega
          · show s.produced = s.delivered ++ slice.take n
              ++ (r1.advance n).pendingList
            rw [hadv, hvals, List.append_assoc, List.take_append_drop]
            exact hpp
          · show s.ring.tail ≤ r1.tail
            rw [f2]
          · show s.ring.head ≤ r1.head + n
            rw [f3]; omega
  | consumeBatch =>
      by_cases hav : s.ring.tail - s.ring.head = 0
      · simp only [stepOp, Ring.consumeBatch, if_pos hav]
        refine ⟨⟨⟨hch, hct, hht, hocc⟩, ?_⟩, le_rfl, le_rfl⟩
        show s.produced = s.delivered ++ [] ++ s.ring.pendingList
        simpa using hpp
      · simp only [stepOp, Ring.consumeBatch, if_neg hav]
        have hvals : s.ring.readSeq s.ring.head (s.ring.tail - s.ring.head)
            = s.ring.pendingList := by
          rw [s.ring.readSeq_eq_pending_take _ le_rfl, ← Ring.pendingList_length,
            List.take_length]
        refine ⟨⟨⟨?_, ?_, ?_, ?_⟩, ?_⟩, le_rfl, ?_⟩
        · show s.ring.cachedHead ≤ s.ring.tail
          omega
        · show s.ring.cachedTail ≤ s.ring.tail
          exact hct
        · show s.ring.tail ≤ s.ring.tail
          exact le_rfl
        · show s.ring.tail ≤ s.ring.tail + _
          exact Nat.le_add_right _ _
        · show s.produced = s.delivered
            ++ s.ring.readSeq s.ring.head (s.ring.tail - s.ring.head)
            ++ ({ s.ring with head := s.ring.tail } : Ring α).pendingList
          rw [Ring.pendingList_drain_all, hvals]
          simpa using hpp
        · show s.ring.head ≤ s.ring.tail
          exact hht
  | consumeBatchOwned =>
      by_cases hav : s.ring.tail - s.ring.head = 0
      · simp only [stepOp, Ring.consumeBatchOwned, if_pos hav]
        refine ⟨⟨⟨hch, hct, hht, hocc⟩, ?_⟩, le_rfl, le_rfl⟩
        show s.produced = s.delivered ++ [] ++ s.ring.pendingList
        simpa using hpp
      · simp only [stepOp, Ring.consumeBatchOwned, if_neg hav]
        have hvals : s.ring.readSeq s.ring.head (s.ring.tail - s.ring.head)
            = s.ring.pendingList := by
          rw [s.ring.readSeq_eq_pending_take _ le_rfl, ← Ring.pendingList_length,
            List.take_length]
        refine ⟨⟨⟨?_, ?_, ?_, ?_⟩, ?_⟩, le_rfl, ?_⟩
        · show s.ring.cachedHead ≤ s.ring.tail
          omega
        · show s.ring.cachedTail ≤ s.ring.tail
          exact hct
        · show s.ring.tail ≤ s.ring.tail
          exact le_rfl
        · show s.ring.tail ≤ s.ring.tail + _
          exact Nat.le_add_right _ _
        · show s.produced = s.delivered
            ++ s.ring.readSeq s.ring.head (s.ring.tail - s.ring.head)
            ++ ({ s.ring with head := s.ring.tail } : Ring α).pendingList
          rw [Ring.pendingList_drain_all, hvals]
          simpa using hpp
        · show s.ring.head ≤ s.ring.tail
          exact hht
  | consumeUpTo m =>
      by_cases hm : m = 0
      · simp only [stepOp, Ring.consumeUpTo, if_pos hm]
        refine ⟨⟨⟨hch, hct, hht, hocc⟩, ?_⟩, le_rfl, le_rfl⟩
        show s.produced = s.delivered ++ [] ++ s.ring.pendingList
        simpa using hpp
      · by_cases hav : s.ring.tail - s.ring.head = 0
        · simp only [stepOp, Ring.consumeUpTo, if_neg hm, if_pos hav]
          refine ⟨⟨⟨hch, hct, hht, hocc⟩, ?_⟩, le_rfl, le_rfl⟩
          show s.produced = s.delivered ++ [] ++ s.ring.pendingList
          simpa using hpp
        · simp only [stepOp, Ring.consumeUpTo, if_neg hm, if_neg hav]
          set k := min (s.ring.tail - s.ring.head) m with hk
          have hkle : k ≤ s.ring.tail - s.ring.head := Nat.min_le_left _ _
          have hvals : s.ring.readSeq s.ring.head k
              = s.ring.pendingList.take k :=
            s.ring.readSeq_eq_pending_take k hkle
          refine ⟨⟨⟨?_, ?_, ?_, ?_⟩, ?_⟩, le_rfl, ?_⟩
          · show s.ring.cachedHead ≤ s.ring.head + k
            omega
          · show s.ring.cachedTail ≤ s.ring.tail
            exact hct
          · show s.ring.head + k ≤ s.ring.tail
            omega
          · show s.ring.tail ≤ s.ring.head + k + _
            have : ({ s.ring with head := s.ring.head + k } : Ring α).capacity
                = s.ring.capacity := rfl
            rw [this]; omega
          · show s.produced = s.delivered ++ s.ring.readSeq s.ring.head k
              ++ ({ s.ring with head := s.ring.head + k } : Ring α).pendingList
            rw [Ring.pendingList_advance_drop, hvals, List.append_assoc,
              List.take_append_drop]
            exact hpp
          · show s.ring.head ≤ s.ring.head + k
            exact Nat.le_add_right _ _
  | consumeUpToOwned m =>
      by_cases hm : m = 0
      · simp only [stepOp, Ring.consumeUpToOwned, if_pos hm]
        refine ⟨⟨⟨hch, hct, hht, hocc⟩, ?_⟩, le_rfl, le_rfl⟩
        show s.produced = s.delivered ++ [] ++ s.ring.pendingList
        simpa using hpp
      · by_cases hav : s.ring.tail - s.ring.head = 0
        · simp only [stepOp, Ring.consumeUpToOwned, if_neg hm, if_pos hav]
          refine ⟨⟨⟨hch, hct, hht, hocc⟩, ?_⟩, le_rfl, le_rfl⟩
          show s.produced = s.delivered ++ [] ++ s.ring.pendingList
          simpa using hpp
        · simp only [stepOp, Ring.consumeUpToOwned, if_neg hm, if_neg hav]
          set k := min (s.ring.tail - s.ring.head) m with hk
          have hkle : k ≤ s.ring.tail - s.ring.head := Nat.min_le_left _ _
          have hvals : s.ring.readSeq s.ring.head k
              = s.ring.pendingList.take k :=
            s.ring.readSeq_eq_pending_take k hkle
          refine ⟨⟨⟨?_, ?_, ?_, ?_⟩, ?_⟩, le_rfl, ?_⟩
          · show s.ring.cachedHead ≤ s.ring.head + k
            omega
          · show s.ring.cachedTail ≤ s.ring.tail
            exact hct
          · show s.ring.head + k ≤ s.ring.tail
            omega
          · show s.ring.tail ≤ s.ring.head + k + _
            have : ({ s.ring with head := s.ring.head + k } : Ring α).capacity
                = s.ring.capacity := rfl
            rw [this]; omega
          · show s.produced = s.delivered ++ s.ring.readSeq s.ring.head k
              ++ ({ s.ring with head := s.ring.head + k } : Ring α).pendingList
            rw [Ring.pendingList_advance_drop, hvals, List.append_assoc,
              List.take_append_drop]
            exact hpp
          · show s.ring.head ≤ s.ring.head + k
            exact Nat.le_add_right _ _
  | close =>
      simp only [stepOp]
      refine ⟨⟨⟨hch, hct, hht, hocc⟩, ?_⟩, le_rfl, le_rfl⟩
      show s.produced = s.delivered ++ (s.ring.close).pendingList
      have : (s.ring.close).pendingList = s.ring.pendingList :=
        Ring.pendingList_eq_of s.ring s.ring.close rfl rfl rfl rfl
      rw [this]; exact hpp

/-- The fresh ring satisfies the trace invariant. -/
theorem minv_initState {α : Type} (bits : Nat) (d : α) :
    MInv (initState bits d) := by
  refine ⟨⟨le_rfl, le_rfl, le_rfl, Nat.zero_le _⟩, ?_⟩
  simp [initState, Ring.new, Ring.pendingList]

/-- Any trace from an invariant state stays invariant, with monotone
counters. -/
theorem minv_runOps {α : Type} (ops : List (POp α)) (s : MState α)
    (hinv : MInv s) :
    MInv (runOps ops s) ∧ s.ring.tail ≤ (runOps ops s).ring.tail ∧
      s.ring.head ≤ (runOps ops s).ring.head := by
  induction ops generalizing s with
  | nil => exact ⟨hinv, le_rfl, le_rfl⟩
  | cons o rest ih =>
      obtain ⟨h1, h2, h3⟩ := minv_stepOp o s hinv
      obtain ⟨g1, g2, g3⟩ := ih (stepOp o s) h1
      exact ⟨g1, le_trans h2 g2, le_trans h3 g3⟩

/-- A full `consume_batch` empties the ring, delivering the entire backlog:
afterwards the delivered history equals the full published history. -/
theorem delivered_after_full_drain {α : Type} (s : MState α) (hinv : MInv s) :
    (stepOp POp.consumeBatch s).delivered = s.produced := by
  obtain ⟨⟨hch, hct, hht, hocc⟩, hpp⟩ := hinv
  by_cases hav : s.ring.tail - s.ring.head = 0
  · simp only [stepOp, Ring.consumeBatch, if_pos hav]
    have hemp : s.ring.pendingList = [] := by
      simp [Ring.pendingList, hav]
    simp [hpp, hemp]
  · simp only [stepOp, Ring.consumeBatch, if_neg hav]
    have hvals : s.ring.readSeq s.ring.head (s.ring.tail - s.ring.head)
        = s.ring.pendingList := by
      rw [s.ring.readSeq_eq_pending_take _ le_rfl, ← Ring.pendingList_length,
        List.take_length]
    show s.delivered ++ _ = s.produced
    rw [hvals, hpp]

/-- A failed `reserve(1)`-based `push` returns `false` with the ring as the
reserve left it. -/
theorem push_fail_eq {α : Type} (r : Ring α) (v : α)
    (hfst : (r.reserve 1).1 = none) :
    r.push v = (false, (r.reserve 1).2) := by
  unfold Ring.push
  rcases hres : r.reserve 1 with ⟨o, r1⟩
  cases o with
  | none => rfl
  | some res =>
      rw [hres] at hfst
      simp at hfst

/-- On a full ring, `reserve(1)` fails. -/
theorem reserve_full_none {α : Type} (r : Ring α) (hwf : r.WF)
    (hfull : r.capacity ≤ r.tail - r.head) : (r.reserve 1).1 = none := by
  rw [r.reserve_fst_eq 1 hwf.1 hwf.2.2.1, if_pos]
  right; right
  omega

/-- Sample configuration for concrete evaluations: capacity `2 ^ 2 = 4`. -/
def sampleConfig : Config :=
  { ringBits := 2, maxProducers := 2, enableMetrics := false }

/-- A fresh capacity-4 ring over `Nat`. -/
def sampleRing : Ring Nat := Ring.new sampleConfig 0

/-- A completely full capacity-2 ring over `Nat` (occupancy 2). -/
def fullRing : Ring Nat :=
  { config := { ringBits := 1, maxProducers := 1, enableMetrics := false },
    tail := 2, head := 0, cachedHead := 0, cachedTail := 0, closed := false,
    buf := fun _ => 7 }

/-!
## Claim theorems
-/

/-- **C1** Per-producer FIFO round-trip: for every sequence of operations by
a single producer on one ring (push, send, or reserve-then-commit),
interleaved with consumer drains (`consume_batch`, `consume_batch_owned`,
`consume_up_to`, `consume_up_to_owned`), the concatenation of values passed
to the drain handlers equals, in the same order, the sequence of values the
producer successfully published.  Formally: in every reachable state the
published history is the delivered history followed by the still-pending
ring contents, and after one more full drain the delivered history equals
the published history exactly. -/
theorem c1_per_producer_fifo {α : Type} (bits : Nat) (d : α)
    (ops : List (POp α)) (hops : ∀ o ∈ ops, isC1Op o = true) :
    (runOps ops (initState bits d)).produced =
      (runOps ops (initState bits d)).delivered
        ++ (runOps ops (initState bits d)).ring.pendingList ∧
    (runOps (ops ++ [POp.consumeBatch]) (initState bits d)).delivered =
      (runOps ops (initState bits d)).produced := by
  have hinv := (minv_runOps ops (initState bits d) (minv_initState bits d)).1
  constructor
  · exact hinv.2
  · rw [runOps, List.foldl_append]
    exact delivered_after_full_drain (runOps ops (initState bits d)) hinv

/-- Concrete trace for the C1 witness. -/
def c1ops : List (POp Nat) :=
  [POp.push 10, POp.send [20, 30], POp.consumeUpTo 2,
    POp.rsvCommitN [40, 50] 1, POp.consumeBatch]

/-- Witness for C1 at a concrete producer/consumer trace. -/
theorem c1_per_producer_fifo_witness :
    (∀ o ∈ c1ops, isC1Op o = true) ∧
    ((runOps c1ops (initState 2 0)).produced =
      (runOps c1ops (initState 2 0)).delivered
        ++ (runOps c1ops (initState 2 0)).ring.pendingList ∧
    (runOps (c1ops ++ [POp.consumeBatch]) (initState 2 0)).delivered =
      (runOps c1ops (initState 2 0)).produced) :=
  ⟨by decide, c1_per_producer_fifo 2 0 c1ops (by decide)⟩

/-- **C2** claims that `reserve(n)` on a closed ring returns nothing.  The
code violates this: `Ring::reserve` never consults the `closed` flag (its
own doc comment promises "Returns None if full/closed", and the sibling
`StackRing::reserve` does check).  Evaluating the model at the failing
input: a fresh capacity-4 ring that has been closed still hands out a
length-1 reservation. -/
theorem c2_reserve_ignores_close :
    (Ring.new sampleConfig (0 : Nat)).close.closed = true ∧
    ((Ring.new sampleConfig (0 : Nat)).close.reserve 1).1 =
      some { start := 0, idx := 0, len := 1 } := by
  constructor
  · rfl
  · rfl

/-- **C3** Reserve postcondition: on a well-formed open ring, for
`1 ≤ n ≤ C`, `reserve(n)` fails exactly when the free space
`C - (tail - head)` is less than `n` (no partial satisfaction), and on
success the reservation length is exactly `min n (C - (tail AND M))`, so the
reserved region never crosses the wrap boundary
(`idx + len ≤ capacity`). -/
theorem c3_reserve_postcondition {α : Type} (r : Ring α) (n : Nat)
    (hwf : r.WF) (hopen : r.closed = false) (h1 : 1 ≤ n)
    (h2 : n ≤ r.capacity) :
    ((r.reserve n).1 = none ↔ r.capacity - (r.tail - r.head) < n) ∧
    (∀ res, (r.reserve n).1 = some res →
      res.len = min n (r.capacity - Nat.land r.tail r.mask) ∧
      res.idx + res.len ≤ r.capacity) := by
  have hfst := r.reserve_fst_eq n hwf.1 hwf.2.2.1
  constructor
  · constructor
    · intro h
      by_contra hc
      rw [hfst, if_neg (by push_neg; exact ⟨by omega, by omega, by omega⟩)] at h
      exact absurd h (by simp)
    · intro h
      rw [hfst, if_pos (by tauto)]
  · intro res hr
    obtain ⟨hs, hidx, hlen, _, _, hsp⟩ :=
      r.reserve_some_spec n res hwf.1 hwf.2.2.1 hr
    have hmod : r.tail % r.capacity < r.capacity := Nat.mod_lt _ r.capacity_pos
    constructor
    · rw [hlen, r.land_mask_eq_mod]
    · rw [hidx, hlen]
      have := Nat.min_le_right n (r.capacity - r.tail % r.capacity)
      omega

/-- Witness for C3 on a fresh capacity-4 ring with `n = 3`. -/
theorem c3_reserve_postcondition_witness :
    ((sampleRing.reserve 3).1 = none ↔
      sampleRing.capacity - (sampleRing.tail - sampleRing.head) < 3) ∧
    (∀ res, (sampleRing.reserve 3).1 = some res →
      res.len = min 3 (sampleRing.capacity - Nat.land sampleRing.tail sampleRing.mask) ∧
      res.idx + res.len ≤ sampleRing.capacity) :=
  c3_reserve_postcondition sampleRing 3
    ⟨Nat.le_refl 0, Nat.le_refl 0, Nat.le_refl 0, Nat.zero_le _⟩
    rfl (by decide) (by decide)

/-- **C4** State invariant: from a fresh ring, after every sequence of the
protocol operations (reserve, commit, try_commit_n, commit_up_to, push,
send, recv, and the four drain variants), `0 ≤ tail - head ≤ capacity`
holds, and no single further operation ever decreases `tail` or `head`. -/
theorem c4_state_invariant {α : Type} (bits : Nat) (d : α)
    (ops : List (POp α)) :
    (runOps ops (initState bits d)).ring.head ≤
        (runOps ops (initState bits d)).ring.tail ∧
    (runOps ops (initState bits d)).ring.tail -
        (runOps ops (initState bits d)).ring.head ≤
      (runOps ops (initState bits d)).ring.capacity ∧
    ∀ o : POp α,
      (runOps ops (initState bits d)).ring.tail ≤
          (stepOp o (runOps ops (initState bits d))).ring.tail ∧
      (runOps ops (initState bits d)).ring.head ≤
          (stepOp o (runOps ops (initState bits d))).ring.head := by
  have hinv := (minv_runOps ops (initState bits d) (minv_initState bits d)).1
  obtain ⟨⟨hch, hct, hht, hocc⟩, hpp⟩ := hinv
  refine ⟨hht, by omega, fun o => ?_⟩
  obtain ⟨_, h2, h3⟩ := minv_stepOp o (runOps ops (initState bits d))
    ⟨⟨hch, hct, hht, hocc⟩, hpp⟩
  exact ⟨h2, h3⟩

/-- **C5** Over-commit contract: for a reservation of length `L`,
`try_commit_n(k)` with `k ≤ L` advances `tail` by exactly `k`, returns
`Ok(())`, and changes nothing else; with `k > L` it returns
`Err(CommitError { attempted = k, available = L })` and leaves the entire
ring state unchanged. -/
theorem c5_over_commit {α : Type} (r : Ring α) (res : ResInfo) (k : Nat) :
    (k ≤ res.len →
      (r.tryCommitN res k).1 = .ok () ∧
      (r.tryCommitN res k).2.tail = r.tail + k ∧
      (r.tryCommitN res k).2.head = r.head ∧
      (r.tryCommitN res k).2.buf = r.buf ∧
      (r.tryCommitN res k).2.cachedHead = r.cachedHead ∧
      (r.tryCommitN res k).2.cachedTail = r.cachedTail ∧
      (r.tryCommitN res k).2.closed = r.closed) ∧
    (res.len < k →
      (r.tryCommitN res k).1 =
        .error { attempted := k, available := res.len } ∧
      (r.tryCommitN res k).2 = r) := by
  constructor
  · intro h
    simp [Ring.tryCommitN, Nat.not_lt.2 h, Ring.commitInternal]
  · intro h
    simp [Ring.tryCommitN, h]

/-- Witness for C5: committing 2 of a 3-slot reservation succeeds and moves
the tail by exactly 2; committing 5 reports the over-commit error and
leaves the ring untouched. -/
theorem c5_over_commit_witness :
    ((sampleRing.tryCommitN { start := 0, idx := 0, len := 3 } 2).1 = .ok () ∧
     (sampleRing.tryCommitN { start := 0, idx := 0, len := 3 } 2).2.tail =
       sampleRing.tail + 2) ∧
    ((sampleRing.tryCommitN { start := 0, idx := 0, len := 3 } 5).1 =
       .error { attempted := 5, available := 3 } ∧
     (sampleRing.tryCommitN { start := 0, idx := 0, len := 3 } 5).2 =
       sampleRing) :=
  ⟨⟨((c5_over_commit sampleRing { start := 0, idx := 0, len := 3 } 2).1
      (by decide)).1,
    ((c5_over_commit sampleRing { start := 0, idx := 0, len := 3 } 2).1
      (by decide)).2.1⟩,
   (c5_over_commit sampleRing { start := 0, idx := 0, len := 3 } 5).2
      (by decide)⟩

/-- **C6** Async no-loss try-send: `RingSender::try_send(v)` returns
`Err(v)` (the item handed back unchanged) with the observable ring state
(tail, head, slots, closed flag) untouched when the channel is shut down,
the producer's ring is closed, or the ring is full; otherwise it returns
`Ok(())` and publishes exactly the single item `v`.  (On the full-ring path
the producer-local `cached_head` may be refreshed; the spec treats the
cached peer index as an unobservable stale snapshot.) -/
theorem c6_try_send_no_loss {α : Type} (s : RingSender α) (v : α)
    (hwf : s.ring.WF) :
    ((s.shutdownClosed = true ∨ s.ring.closed = true) →
      s.trySend v = (.error v, s)) ∧
    (s.shutdownClosed = false → s.ring.closed = false →
      s.ring.tail - s.ring.head = s.ring.capacity →
      (s.trySend v).1 = .error v ∧
      (s.trySend v).2.ring.tail = s.ring.tail ∧
      (s.trySend v).2.ring.head = s.ring.head ∧
      (s.trySend v).2.ring.buf = s.ring.buf ∧
      (s.trySend v).2.ring.closed = s.ring.closed ∧
      (s.trySend v).2.shutdownClosed = s.shutdownClosed) ∧
    (s.shutdownClosed = false → s.ring.closed = false →
      s.ring.tail - s.ring.head < s.ring.capacity →
      (s.trySend v).1 = .ok () ∧
      (s.trySend v).2.ring.tail = s.ring.tail + 1 ∧
      (s.trySend v).2.ring.head = s.ring.head ∧
      (s.trySend v).2.ring.pendingList = s.ring.pendingList ++ [v]) := by
  refine ⟨?_, ?_, ?_⟩
  · intro h
    have hcond : (s.shutdownClosed || s.ring.closed) = true := by
      rcases h with h | h <;> simp [h]
    simp [RingSender.trySend, hcond]
  · intro h1 h2 hfull
    have hcond : (s.shutdownClosed || s.ring.closed) = false := by
      rw [h1, h2]; rfl
    have hfst : (s.ring.reserve 1).1 = none :=
      reserve_full_none s.ring hwf (by omega)
    obtain ⟨f1, f2, f3, f4, f5, f6, f7⟩ := s.ring.reserve_snd_fields 1
    unfold RingSender.trySend
    rw [hcond]
    simp only [Bool.false_eq_true, if_false]
    rcases hres : s.ring.reserve 1 with ⟨o, r1⟩
    have hsnd : (s.ring.reserve 1).2 = r1 := by rw [hres]
    rw [hsnd] at f1 f2 f3 f4 f5 f6 f7
    cases o with
    | some res =>
        rw [hres] at hfst
        simp at hfst
    | none =>
        exact ⟨rfl, f2, f3, f6, f5, rfl⟩
  · intro h1 h2 hlt
    have hcpos := s.ring.capacity_pos
    have hcond : (s.shutdownClosed || s.ring.closed) = false := by
      rw [h1, h2]; rfl
    have hfst : (s.ring.reserve 1).1 =
        some (s.ring.makeReservation s.ring.tail 1) := by
      rw [s.ring.reserve_fst_eq 1 hwf.1 hwf.2.2.1, if_neg]
      push_neg
      exact ⟨by omega, by omega, by omega⟩
    unfold RingSender.trySend
    rw [hcond]
    simp only [Bool.false_eq_true, if_false]
    rcases hres : s.ring.reserve 1 with ⟨o, r1⟩
    cases o with
    | none =>
        rw [hres] at hfst
        simp at hfst
    | some res =>
        have hres2 : s.ring.reserve 1 = (some res, r1) := hres
        obtain ⟨hwf2, htl, hhd, hcl, hpend⟩ :=
          s.ring.publish_spec 1 res.len [v] res r1 hwf hres2 (by simp) le_rfl
        obtain ⟨hs, hidx, hlen, _, _, hsp⟩ :=
          s.ring.reserve_some_spec 1 res hwf.1 hwf.2.2.1 (by rw [hres])
        have hmod : s.ring.tail % s.ring.capacity < s.ring.capacity :=
          Nat.mod_lt _ hcpos
        have hlen1 : res.len = 1 := by
          rw [hlen]
          exact Nat.min_eq_left (by omega)
        refine ⟨rfl, ?_, ?_, ?_⟩
        · show ((r1.writeRes res [v]).commitInternal res.len).tail = _
          rw [htl, hlen1]
        · show ((r1.writeRes res [v]).commitInternal res.len).head = _
          rw [hhd]
        · show ((r1.writeRes res [v]).commitInternal res.len).pendingList = _
          rw [hpend, hlen1]
          simp

/-- A sender whose shutdown flag is set. -/
def shutSender : RingSender Nat := { shutdownClosed := true, ring := sampleRing }

/-- A live sender over a full capacity-2 ring. -/
def fullSender : RingSender Nat := { shutdownClosed := false, ring := fullRing }

/-- A live sender over a fresh capacity-4 ring. -/
def freshSender : RingSender Nat :=
  { shutdownClosed := false, ring := sampleRing }

/-- Witness for C6: shutdown, full-ring and successful try-sends at
concrete states. -/
theorem c6_try_send_no_loss_witness :
    (shutSender.trySend 5 = (.error 5, shutSender)) ∧
    ((fullSender.trySend 6).1 = .error 6 ∧
      (fullSender.trySend 6).2.ring.tail = fullRing.tail ∧
      (fullSender.trySend 6).2.ring.head = fullRing.head ∧
      (fullSender.trySend 6).2.ring.buf = fullRing.buf) ∧
    ((freshSender.trySend 7).1 = .ok () ∧
      (freshSender.trySend 7).2.ring.tail = sampleRing.tail + 1 ∧
      (freshSender.trySend 7).2.ring.pendingList =
        sampleRing.pendingList ++ [7]) := by
  refine ⟨?_, ?_, ?_⟩
  · exact (c6_try_send_no_loss shutSender 5
      ⟨Nat.le_refl 0, Nat.le_refl 0, Nat.le_refl 0, Nat.zero_le _⟩).1
      (Or.inl rfl)
  · have h := (c6_try_send_no_loss fullSender 6
      ⟨Nat.zero_le _, Nat.zero_le _, Nat.zero_le _, by decide⟩).2.1
      rfl rfl (by decide)
    exact ⟨h.1, h.2.1, h.2.2.1, h.2.2.2.1⟩
  · have h := (c6_try_send_no_loss freshSender 7
      ⟨Nat.le_refl 0, Nat.le_refl 0, Nat.le_refl 0, Nat.zero_le _⟩).2.2
      rfl rfl (by decide)
    exact ⟨h.1, h.2.1, h.2.2.2⟩

/-- **C7** Registration contract: `Channel::register` on a closed channel
returns `Err(Closed)`; when `producer_count` has reached `max_producers` it
returns `Err(TooManyProducers { max })` with `producer_count` rolled back to
its previous value (the `+1`/`-1` cancel); otherwise it returns a handle
bound to ring index `producer_count` (registration order equals ring-array
order), marks that ring active, and increments the count by one. -/
theorem c7_register_contract (c : Channel) :
    c.register =
      if c.closed then (.error .closed, c)
      else if c.maxProducers ≤ c.producerCount then
        (.error (.tooManyProducers c.maxProducers), c)
      else
        (.ok c.producerCount,
          { c with producerCount := c.producerCount + 1,
                   ringActive :=
                     Function.update c.ringActive c.producerCount true }) := by
  rcases c with ⟨pc, mp, cl, ra⟩
  by_cases h1 : cl = true
  · simp [Channel.register, h1]
  · by_cases h2 : mp ≤ pc
    · simp [Channel.register, h1, h2]
    · simp [Channel.register, h1, h2]

/-- **C8** Reservation rollback frame: dropping a `Reservation` without any
commit runs no code (`Reservation` has no `Drop` impl and `commit` consumes
`self`), so after a successful `reserve(n)` the ring's tail, head,
occupancy and slots are unchanged, and an identical `reserve(n)` hands out
the very same region again. -/
theorem c8_reservation_drop_rollback {α : Type} (r : Ring α) (n : Nat)
    (res : ResInfo) (r1 : Ring α) (hwf : r.WF)
    (hres : r.reserve n = (some res, r1)) :
    r1.tail = r.tail ∧ r1.head = r.head ∧
    r1.tail - r1.head = r.tail - r.head ∧ r1.buf = r.buf ∧
    (r1.reserve n).1 = some res := by
  obtain ⟨f1, f2, f3, f4, f5, f6, f7⟩ := r.reserve_snd_fields n
  have hsnd : (r.reserve n).2 = r1 := by rw [hres]
  rw [hsnd] at f1 f2 f3 f4 f5 f6 f7
  have hfst : (r.reserve n).1 = some res := by rw [hres]
  obtain ⟨hs, hidx, hlen, hn1, hncap, hsp⟩ :=
    r.reserve_some_spec n res hwf.1 hwf.2.2.1 hfst
  have hch1 : r1.cachedHead ≤ r1.head := by
    rcases f7 with h | h
    · rw [h, f3]; exact hwf.1
    · rw [h, f3]
  have hht1 : r1.head ≤ r1.tail := by rw [f3, f2]; exact hwf.2.2.1
  have hcap1 : r1.capacity = r.capacity := by simp [Ring.capacity, f1]
  refine ⟨f2, f3, by rw [f2, f3], f6, ?_⟩
  rw [r1.reserve_fst_eq n hch1 hht1, if_neg]
  · have hmk : r1.makeReservation r1.tail n = r.makeReservation r.tail n := by
      simp [Ring.makeReservation, Ring.mask, Ring.capacity, f1, f2]
    rw [hmk]
    have h2 := r.reserve_fst_eq n hwf.1 hwf.2.2.1
    rw [h2, if_neg (by push_neg; exact ⟨by omega, by omega, by omega⟩)] at hfst
    rw [hfst]
  · push_neg
    rw [hcap1, f2, f3]
    exact ⟨by omega, by omega, by omega⟩

/-- Witness for C8 on a fresh capacity-4 ring with `n = 2`: the reserve
leaves the ring untouched and a repeat reserve yields the same region. -/
theorem c8_reservation_drop_rollback_witness :
    sampleRing.reserve 2 = (some { start := 0, idx := 0, len := 2 }, sampleRing) ∧
    ((sampleRing.reserve 2).1 = some { start := 0, idx := 0, len := 2 } ∧
      sampleRing.tail = sampleRing.tail ∧
      sampleRing.head = sampleRing.head) := by
  constructor
  · rfl
  · have h := c8_reservation_drop_rollback sampleRing 2
      { start := 0, idx := 0, len := 2 } sampleRing
      ⟨Nat.le_refl 0, Nat.le_refl 0, Nat.le_refl 0, Nat.zero_le _⟩ rfl
    exact ⟨h.2.2.2.2, rfl, rfl⟩

/-- **C9** Out-of-range reserve arguments are rejected totally:
`reserve(0)` and `reserve(n)` with `n > capacity` return `None` and leave
the ring (head, tail, caches, every slot) completely unchanged; the
function is total, so no panic is possible. -/
theorem c9_reserve_out_of_range {α : Type} (r : Ring α) (n : Nat)
    (h : n = 0 ∨ r.capacity < n) : r.reserve n = (none, r) := by
  unfold Ring.reserve
  rw [if_pos h]

/-- Witness for C9: `reserve 0` and an oversized `reserve 5` on the
capacity-4 ring both return `None` with the state unchanged. -/
theorem c9_reserve_out_of_range_witness :
    sampleRing.reserve 0 = (none, sampleRing) ∧
    sampleRing.reserve 5 = (none, sampleRing) :=
  ⟨c9_reserve_out_of_range sampleRing 0 (Or.inl rfl),
   c9_reserve_out_of_range sampleRing 5 (Or.inr (by decide))⟩

/-- **C10** Sync push on a full ring: `push(item)` returns `false` and
leaves head, tail, every slot and the closed flag unchanged.  Unlike the
async `try_send`, the rejected item is consumed by the call (the model's
return type, like the source's `fn push(&self, item: T) -> bool`, carries
no item back) and is dropped rather than returned. -/
theorem c10_push_full_drops {α : Type} (r : Ring α) (v : α) (hwf : r.WF)
    (hfull : r.tail - r.head = r.capacity) :
    (r.push v).1 = false ∧ (r.push v).2.tail = r.tail ∧
    (r.push v).2.head = r.head ∧ (r.push v).2.buf = r.buf ∧
    (r.push v).2.closed = r.closed := by
  have hfst := reserve_full_none r hwf (by omega)
  have hp := push_fail_eq r v hfst
  obtain ⟨f1, f2, f3, f4, f5, f6, f7⟩ := r.reserve_snd_fields 1
  rw [hp]
  exact ⟨rfl, f2, f3, f6, f5⟩

/-- Witness for C10 on a completely full capacity-2 ring. -/
theorem c10_push_full_drops_witness :
    (fullRing.push 99).1 = false ∧ (fullRing.push 99).2.tail = fullRing.tail ∧
    (fullRing.push 99).2.head = fullRing.head ∧
    (fullRing.push 99).2.buf = fullRing.buf :=
  have h := c10_push_full_drops fullRing 99
    ⟨Nat.zero_le _, Nat.zero_le _, Nat.zero_le _, by decide⟩ (by decide)
  ⟨h.1, h.2.1, h.2.2.1, h.2.2.2.1⟩


end Ringmpsc
